import Mathlib

/-!
Shallow embedding of `src/modiHuffman.py` (class `HuffmanCoding`) and proofs
about it.

Modelling conventions:
* Python `str` values are modelled as `List Char`; bit strings are lists over
  the characters '0' and '1', exactly as in the source (which manipulates
  strings of those two characters).
* Python `dict` is modelled as an insertion-ordered association list:
  assignment to an existing key overwrites the value in place, a new key is
  appended at the end.  This mirrors CPython dict iteration order, which the
  source relies on (heap insertion order, JSON key order, trie build order).
* Python exceptions are modelled by `PyExc` inside `Except`; the source
  defines no exception classes of its own, so only built-in exceptions
  (IndexError from `heappop` on an empty list, KeyError from dict subscripts,
  ValueError from `json.loads`/`int`) can occur.
* The `heapq` library calls are modelled function-for-function after
  CPython's `heapq.py` (`heappush`, `heappop`, `_siftdown`, `_siftup`);
  `HeapNode.__lt__` compares frequencies only, and `heapq` uses only `<`.
* while-loops are written as fuel recursion whose fuel argument dominates the
  possible number of iterations (each loop's iteration count is bounded by
  the stated fuel; the fuel-exhaustion branch returns the same value as the
  loop-exit branch), so every definition reduces in the kernel.
-/

/-- Built-in Python exceptions that the code in `modiHuffman.py` can raise. -/
inductive PyExc where
  | indexError : PyExc
  | keyError : PyExc
  | valueError : PyExc
  deriving DecidableEq, Repr

/-! ## Python dict model (insertion-ordered association list) -/

/-- `d[k]`, raising KeyError (here: `none`) when absent. -/
def dictGet {α β : Type} [DecidableEq α] : List (α × β) → α → Option β
  | [], _ => none
  | (k', v') :: rest, k => if k' = k then some v' else dictGet rest k

/-- `d.get(k, dflt)`. -/
def dictGetD {α β : Type} [DecidableEq α] (d : List (α × β)) (k : α) (dflt : β) : β :=
  (dictGet d k).getD dflt

/-- `d[k] = v`: overwrite in place when the key exists, else append. -/
def dictSet {α β : Type} [DecidableEq α] : List (α × β) → α → β → List (α × β)
  | [], k, v => [(k, v)]
  | (k', v') :: rest, k, v =>
      if k' = k then (k, v) :: rest else (k', v') :: dictSet rest k v

/-! ## HeapNode and the CPython heapq model

The source's `HeapNode` has an optional `char` and optional children; the
only shapes ever constructed are a leaf (`char` set, no children, from
`make_heap`) and a merged node (`char = None`, both children set, from
`merge_nodes`), which this inductive captures. -/

inductive HeapNode where
  | leaf (char : Char) (freq : Nat) : HeapNode
  | node (freq : Nat) (left right : HeapNode) : HeapNode
  deriving DecidableEq, Repr

def HeapNode.freq : HeapNode → Nat
  | .leaf _ f => f
  | .node f _ _ => f

/-- Placeholder passed to `List.getD`; every read in the heapq model is in
range (the loops maintain the indices inside the list), so it is never the
result. -/
def dummyNode : HeapNode := HeapNode.leaf 'a' 0

/-- `HeapNode.__lt__`: `self.freq < other.freq` (the only comparison heapq
performs). -/
def hnLt (a b : HeapNode) : Bool := a.freq < b.freq

/-- CPython `heapq._siftdown(heap, startpos, pos)` with `newitem = heap[pos]`
passed explicitly.  The loop walks `pos` toward `startpos`, so `pos + 1` fuel
dominates the iteration count. -/
def siftdownLoop : Nat → List HeapNode → Nat → Nat → HeapNode → List HeapNode
  | 0, heap, _, pos, newitem => heap.set pos newitem
  | fuel + 1, heap, startpos, pos, newitem =>
      if startpos < pos then
        let parentpos := (pos - 1) / 2
        let parent := heap.getD parentpos dummyNode
        if hnLt newitem parent then
          siftdownLoop fuel (heap.set pos parent) startpos parentpos newitem
        else
          heap.set pos newitem
      else
        heap.set pos newitem

def siftdown (heap : List HeapNode) (startpos pos : Nat) : List HeapNode :=
  siftdownLoop (pos + 1) heap startpos pos (heap.getD pos dummyNode)

/-- The child-chasing loop of CPython `heapq._siftup`: returns the final heap
and the final `pos`.  `pos` strictly increases and stays below `endpos`, so
`endpos + 1` fuel dominates the iteration count. -/
def siftupLoop : Nat → Nat → List HeapNode → Nat → List HeapNode × Nat
  | 0, _, heap, pos => (heap, pos)
  | fuel + 1, endpos, heap, pos =>
      let childpos := 2 * pos + 1
      if childpos < endpos then
        let rightpos := childpos + 1
        let childpos :=
          if rightpos < endpos &&
             !(hnLt (heap.getD childpos dummyNode) (heap.getD rightpos dummyNode)) then
            rightpos
          else
            childpos
        siftupLoop fuel endpos (heap.set pos (heap.getD childpos dummyNode)) childpos
      else
        (heap, pos)

/-- CPython `heapq._siftup(heap, pos)`. -/
def siftup (heap : List HeapNode) (pos : Nat) : List HeapNode :=
  let endpos := heap.length
  let newitem := heap.getD pos dummyNode
  let r := siftupLoop (endpos + 1) endpos heap pos
  siftdown (r.1.set r.2 newitem) pos r.2

/-- CPython `heapq.heappush`. -/
def heappush (heap : List HeapNode) (item : HeapNode) : List HeapNode :=
  siftdownLoop (heap.length + 1) (heap ++ [item]) 0 heap.length item

/-- CPython `heapq.heappop`: `none` models the IndexError raised by
`heap.pop()` on an empty list. -/
def heappop (heap : List HeapNode) : Option (HeapNode × List HeapNode) :=
  match heap.getLast? with
  | none => none
  | some lastelt =>
      let rest := heap.dropLast
      if rest.isEmpty then
        some (lastelt, [])
      else
        some (rest.headD lastelt, siftup (rest.set 0 lastelt) 0)

/-! ## HuffmanCoding methods -/

/-- `make_frequency_dict`: first-occurrence-ordered counting dict. -/
def make_frequency_dict (text : List Char) : List (Char × Nat) :=
  text.foldl (fun f c => dictSet f c (dictGetD f c 0 + 1)) []

/-- `make_heap`: pushes one leaf per frequency entry onto the existing
`self.heap` (which is *not* cleared first). -/
def make_heap (frequency : List (Char × Nat)) (heap : List HeapNode) : List HeapNode :=
  frequency.foldl (fun h kv => heappush h (HeapNode.leaf kv.1 kv.2)) heap

/-- `merge_nodes`: `while len(heap) > 1`, pop two, push merged node.  Each
iteration shrinks the heap by one element, so `heap.length` fuel dominates
the iteration count; the fuel-exhaustion branch coincides with loop exit. -/
def mergeLoop : Nat → List HeapNode → List HeapNode
  | 0, heap => heap
  | fuel + 1, heap =>
      if 1 < heap.length then
        match heappop heap with
        | none => heap
        | some (node1, rest1) =>
            match heappop rest1 with
            | none => heap
            | some (node2, rest2) =>
                mergeLoop fuel
                  (heappush rest2 (HeapNode.node (node1.freq + node2.freq) node1 node2))
      else
        heap

def merge_nodes (heap : List HeapNode) : List HeapNode :=
  mergeLoop heap.length heap

/-- A code table: Python `self.codes`, a dict from symbol to bit string. -/
abbrev Codes := List (Char × List Char)

/-- `make_codes_helper`: depth-first assignment into `self.codes` (left edge
appends '0', right edge appends '1'); a node carrying a char stores the
accumulated code and stops. -/
def make_codes_helper : HeapNode → List Char → Codes → Codes
  | .leaf c _, current_code, codes => dictSet codes c current_code
  | .node _ l r, current_code, codes =>
      make_codes_helper r (current_code ++ ['1'])
        (make_codes_helper l (current_code ++ ['0']) codes)

/-- `get_encoded_text`: concatenates `self.codes[char]` over the text;
`none` models the KeyError for a symbol missing from the code table. -/
def get_encoded_text (codes : Codes) : List Char → Option (List Char)
  | [] => some []
  | c :: rest =>
      match dictGet codes c, get_encoded_text codes rest with
      | some code, some r => some (code ++ r)
      | _, _ => none

/-! ## Bit packing -/

/-- Python `bin(n)[2:]`: binary digits, most significant first, "0" for 0. -/
def natToBinStr (n : Nat) : List Char := Nat.toDigits 2 n

/-- `"{0:08b}".format(n)` and `bin(n)[2:].rjust(8, '0')`: zero-pad the binary
representation on the left to at least 8 characters. -/
def toBin8 (n : Nat) : List Char :=
  let s := natToBinStr n
  List.replicate (8 - s.length) '0' ++ s

/-- `int(s, 2)` on a string of '0'/'1' characters. -/
def binToNat (s : List Char) : Nat :=
  s.foldl (fun a c => 2 * a + (if c = '1' then 1 else 0)) 0

/-- `pad_encoded_text`: prepend the 8-bit padding count, append that many
'0' bits.  `extra_padding = 8 - len % 8` is 8 (never 0) on aligned input. -/
def pad_encoded_text (encoded_text : List Char) : List Char :=
  let extra_padding := 8 - encoded_text.length % 8
  toBin8 extra_padding ++ encoded_text ++ List.replicate extra_padding '0'

/-- `get_byte_array`: `int(s[i:i+8], 2)` for `i in range(0, len, 8)`.  The
recursion consumes at least one character per step, so `s.length` fuel
dominates the iteration count. -/
def getByteArrayLoop : Nat → List Char → List Nat
  | 0, _ => []
  | _ + 1, [] => []
  | fuel + 1, s => binToNat (s.take 8) :: getByteArrayLoop fuel (s.drop 8)

def get_byte_array (padded_encoded_text : List Char) : List Nat :=
  getByteArrayLoop padded_encoded_text.length padded_encoded_text

/-- `remove_padding`: read the first 8 bits as the padding count, return
`s[8:-extra]` (the Python slice is empty when `extra = 0`, since `-0` is
`0`). -/
def remove_padding (padded_encoded_text : List Char) : List Char :=
  let extra_padding := binToNat (padded_encoded_text.take 8)
  if extra_padding = 0 then []
  else (padded_encoded_text.drop 8).take (padded_encoded_text.length - extra_padding - 8)

/-! ## JSON header serialization

`compress` writes `json.dumps({"frequency": frequency, "original_extension":
ext})` followed by the byte `0x0A`.  `json.dumps` with default options
(`ensure_ascii=True`, separators `", "` and `": "`, insertion-ordered keys)
is modelled below for the exact value shapes the source passes: a dict with
the two fixed keys, a char-keyed int-valued frequency dict, and strings. -/

/-- `Nat.digitChar` restricted to hex use; CPython's `%04x` and the decimal
`repr` both draw from this character set. -/
def hexDig (n : Nat) : Char := Nat.digitChar n

/-- Four lowercase hex digits, as produced by `'\\u%04x'`. -/
def hex4 (n : Nat) : List Char :=
  [hexDig (n / 4096 % 16), hexDig (n / 256 % 16), hexDig (n / 16 % 16), hexDig (n % 16)]

/-- Decimal digits of `n`, most significant first (`repr` of a non-negative
int).  One digit is produced per fuel step after dividing by 10, so `n + 1`
fuel dominates the recursion depth. -/
def natDecDigits : Nat → Nat → List Char
  | 0, _ => []
  | fuel + 1, n =>
      if n < 10 then [Nat.digitChar n]
      else natDecDigits fuel (n / 10) ++ [Nat.digitChar (n % 10)]

def natToDecStr (n : Nat) : List Char := natDecDigits (n + 1) n

/-- CPython `json.encoder.py_encode_basestring_ascii` on one character:
backslash-escape for the seven short escapes, the character itself in
printable ASCII, `\uXXXX` below U+10000, a surrogate pair above. -/
def escapeChar (c : Char) : List Char :=
  if c = '\\' then ['\\', '\\']
  else if c = '"' then ['\\', '"']
  else if 0x20 ≤ c.toNat && c.toNat ≤ 0x7e then [c]
  else if c = '\n' then ['\\', 'n']
  else if c = '\t' then ['\\', 't']
  else if c = '\r' then ['\\', 'r']
  else if c.toNat = 0x08 then ['\\', 'b']
  else if c.toNat = 0x0c then ['\\', 'f']
  else if c.toNat < 0x10000 then '\\' :: 'u' :: hex4 c.toNat
  else
    let n := c.toNat - 0x10000
    ('\\' :: 'u' :: hex4 (0xd800 + n / 0x400)) ++ ('\\' :: 'u' :: hex4 (0xdc00 + n % 0x400))

/-- Escape a whole string (concatenation of per-character escapes). -/
def escapeStr : List Char → List Char
  | [] => []
  | c :: rest => escapeChar c ++ escapeStr rest

/-- A JSON string literal: quote, escaped contents, quote. -/
def dumpJStr (s : List Char) : List Char :=
  '"' :: escapeStr s ++ ['"']

/-- The `", "`-separated `"key": value` pairs of the frequency dict. -/
def dumpFreqPairs : List (Char × Nat) → List Char
  | [] => []
  | [(c, n)] => dumpJStr [c] ++ [':', ' '] ++ natToDecStr n
  | (c, n) :: rest =>
      dumpJStr [c] ++ [':', ' '] ++ natToDecStr n ++ [',', ' '] ++ dumpFreqPairs rest

def dumpFreqObj (freq : List (Char × Nat)) : List Char :=
  '{' :: dumpFreqPairs freq ++ ['}']

/-- `json.dumps({"frequency": freq, "original_extension": ext})`. -/
def json_dumps_header (freq : List (Char × Nat)) (ext : List Char) : List Char :=
  '{' :: dumpJStr ("frequency".toList) ++ [':', ' '] ++ dumpFreqObj freq
    ++ [',', ' '] ++ dumpJStr ("original_extension".toList) ++ [':', ' ']
    ++ dumpJStr ext ++ ['}']

/-! ## JSON header parsing

`decompress` runs `json.loads` on the scanned header bytes.  The model below
parses exactly the grammar the serializer emits (which is the only input the
decompressor's own artifacts present); frequency keys must decode to single
characters, as they do for every header the compressor writes.  Surrogate
pairs are not recombined (no claim exercises them). -/

def hexVal (c : Char) : Option Nat :=
  if 48 ≤ c.toNat && c.toNat ≤ 57 then some (c.toNat - 48)
  else if 97 ≤ c.toNat && c.toNat ≤ 102 then some (c.toNat - 87)
  else if 65 ≤ c.toNat && c.toNat ≤ 70 then some (c.toNat - 55)
  else none

/-- Consume an expected literal, returning the remainder. -/
def stripLit : List Char → List Char → Option (List Char)
  | [], s => some s
  | _ :: _, [] => none
  | l :: ls, c :: s => if c = l then stripLit ls s else none

/-- Parse a JSON string body after its opening quote, undoing the escapes the
serializer produces. -/
def parseJStr : List Char → Option (List Char × List Char)
  | [] => none
  | '"' :: rest => some ([], rest)
  | '\\' :: '"' :: rest => (parseJStr rest).map (fun p => ('"' :: p.1, p.2))
  | '\\' :: '\\' :: rest => (parseJStr rest).map (fun p => ('\\' :: p.1, p.2))
  | '\\' :: '/' :: rest => (parseJStr rest).map (fun p => ('/' :: p.1, p.2))
  | '\\' :: 'n' :: rest => (parseJStr rest).map (fun p => ('\n' :: p.1, p.2))
  | '\\' :: 't' :: rest => (parseJStr rest).map (fun p => ('\t' :: p.1, p.2))
  | '\\' :: 'r' :: rest => (parseJStr rest).map (fun p => ('\r' :: p.1, p.2))
  | '\\' :: 'b' :: rest => (parseJStr rest).map (fun p => (Char.ofNat 8 :: p.1, p.2))
  | '\\' :: 'f' :: rest => (parseJStr rest).map (fun p => (Char.ofNat 12 :: p.1, p.2))
  | '\\' :: 'u' :: h1 :: h2 :: h3 :: h4 :: rest =>
      match hexVal h1, hexVal h2, hexVal h3, hexVal h4 with
      | some a, some b, some c, some d =>
          (parseJStr rest).map
            (fun p => (Char.ofNat (4096 * a + 256 * b + 16 * c + d) :: p.1, p.2))
      | _, _, _, _ => none
  | '\\' :: _ => none
  | c :: rest => (parseJStr rest).map (fun p => (c :: p.1, p.2))

/-- Parse a decimal natural number (at least one digit). -/
def parseNat (s : List Char) : Option (Nat × List Char) :=
  let ds := s.takeWhile (fun c => 48 ≤ c.toNat && c.toNat ≤ 57)
  if ds.isEmpty then none
  else some (ds.foldl (fun a c => 10 * a + (c.toNat - 48)) 0, s.drop ds.length)

/-- Parse the `"k": v` pairs of a non-empty frequency object, up to and
including its closing brace.  Each step consumes input, so the remaining
length dominates the recursion depth. -/
def parseFreqPairs : Nat → List Char → Option (List (Char × Nat) × List Char)
  | 0, _ => none
  | fuel + 1, '"' :: rest =>
      match parseJStr rest with
      | some ([k], rest1) =>
          match stripLit [':', ' '] rest1 with
          | some rest2 =>
              match parseNat rest2 with
              | some (v, '}' :: rest4) => some ([(k, v)], rest4)
              | some (v, ',' :: ' ' :: rest4) =>
                  match parseFreqPairs fuel rest4 with
                  | some (ps, rest5) => some ((k, v) :: ps, rest5)
                  | none => none
              | _ => none
          | none => none
      | _ => none
  | _ + 1, _ => none

def parseFreqObj : List Char → Option (List (Char × Nat) × List Char)
  | '{' :: '}' :: rest => some ([], rest)
  | '{' :: rest => parseFreqPairs rest.length rest
  | _ => none

/-- `json.loads` of a header produced by the serializer above: recovers the
frequency table and the original-extension tag; `none` models the ValueError
(`json.JSONDecodeError`) on malformed input. -/
def parseHeader (s : List Char) : Option (List (Char × Nat) × List Char) :=
  match stripLit ('{' :: '"' :: ("frequency".toList) ++ ['"', ':', ' ']) s with
  | none => none
  | some s1 =>
      match parseFreqObj s1 with
      | none => none
      | some (freq, s2) =>
          match stripLit ([',', ' ', '"'] ++ ("original_extension".toList) ++ ['"', ':', ' ', '"']) s2 with
          | none => none
          | some s3 =>
              match parseJStr s3 with
              | some (ext, ['}']) => some (freq, ext)
              | _ => none

/-! ## Decode trie (`build_decode_tree` / `decode_text_tree`)

The source builds a nested dict keyed by the bit characters '0'/'1' plus the
marker key `'char'`.  Codes only ever contain '0' and '1' (they are built by
`make_codes_helper`), so a node is modelled by its two possible bit children
plus the optional `'char'` entry. -/

inductive DTree where
  | mk (zero : Option DTree) (one : Option DTree) (char : Option Char) : DTree
  deriving Repr

def DTree.zero : DTree → Option DTree
  | .mk z _ _ => z

def DTree.one : DTree → Option DTree
  | .mk _ o _ => o

def DTree.char : DTree → Option Char
  | .mk _ _ c => c

def DTree.empty : DTree := .mk none none none

/-- `node[bit]` for a bit character: `none` models the KeyError when the
child is absent (the `'char'` entry is never hit, its key is not a single
bit character). -/
def DTree.child (t : DTree) (bit : Char) : Option DTree :=
  if bit = '0' then t.zero
  else if bit = '1' then t.one
  else none

/-- One code insertion: `node = node.setdefault(bit, {})` along the code,
then `node['char'] = char` (overwriting any previous `'char'`). -/
def trieInsert : DTree → List Char → Char → DTree
  | .mk z o _, [], c => .mk z o (some c)
  | .mk z o ch, b :: bs, c =>
      if b = '0' then .mk (some (trieInsert (z.getD DTree.empty) bs c)) o ch
      else if b = '1' then .mk z (some (trieInsert (o.getD DTree.empty) bs c)) ch
      else .mk z o ch

/-- `build_decode_tree`: fold the `self.codes` dict (in insertion order)
into a trie. -/
def build_decode_tree (codes : Codes) : DTree :=
  codes.foldl (fun t kv => trieInsert t kv.2 kv.1) DTree.empty

/-- `decode_text_tree`'s loop: descend one bit at a time; whenever the
reached node carries a `'char'` entry, emit it and restart from the root.
A missing child raises KeyError. -/
def decodeGo (tree : DTree) : List Char → DTree → Except PyExc (List Char)
  | [], _ => .ok []
  | bit :: rest, node =>
      match node.child bit with
      | none => .error PyExc.keyError
      | some n =>
          match n.char with
          | some c => (decodeGo tree rest tree).map (fun r => c :: r)
          | none => decodeGo tree rest n

def decode_text_tree (encoded_text : List Char) (tree : DTree) : Except PyExc (List Char) :=
  decodeGo tree encoded_text tree

/-! ## The coordinating object and the compress/decompress pipelines -/

/-- The mutable fields set up by `HuffmanCoding.__init__` (the `path` field
is I/O glue; `reverse_mapping` is initialized and never used). -/
structure HCState where
  heap : List HeapNode
  codes : Codes
  reverse_mapping : List (List Char × Char)
  deriving Repr

/-- The fields of a freshly constructed `HuffmanCoding` object. -/
def freshState : HCState := ⟨[], [], []⟩

/-- The `make_heap(frequency); merge_nodes(); make_codes()` call sequence
that both `compress` and `decompress` run on `self`.  `make_codes` pops the
root off `self.heap` (IndexError on an empty heap) and extends `self.codes`
in place. -/
def build_tree_and_codes (frequency : List (Char × Nat)) (s : HCState) :
    Except PyExc HCState :=
  let heap1 := make_heap frequency s.heap
  let heap2 := merge_nodes heap1
  match heappop heap2 with
  | none => .error PyExc.indexError
  | some (root, heap3) =>
      .ok ⟨heap3, make_codes_helper root [] s.codes, s.reverse_mapping⟩

/-- The codec core of `compress` (the file I/O, directory creation and
timing around it are glue): frequency analysis, tree and code construction,
bit packing, and header framing.  The artifact is the written byte sequence:
the UTF-8 bytes of the JSON header (pure ASCII under `ensure_ascii`), the
delimiter `0x0A`, then the packed payload bytes. -/
def compressCore (s : HCState) (text ext : List Char) :
    Except PyExc (List Nat × HCState) :=
  let frequency := make_frequency_dict text
  match build_tree_and_codes frequency s with
  | .error e => .error e
  | .ok s1 =>
      match get_encoded_text s1.codes text with
      | none => .error PyExc.keyError
      | some encoded_text =>
          let padded := pad_encoded_text encoded_text
          let byte_array := get_byte_array padded
          let headerBytes := (json_dumps_header frequency ext).map Char.toNat
          .ok (headerBytes ++ 10 :: byte_array, s1)

/-- The codec core of `decompress`: scan bytes up to the first `0x0A`
delimiter (the source's read loop never terminates when no delimiter is
present; the model is only applied to delimited artifacts), parse the
header, rebuild tree and codes with the same three methods, unpack the
remaining bytes to bits, strip padding, and decode.  Returns the recovered
text. -/
def decompressCore (s : HCState) (data : List Nat) :
    Except PyExc (List Char × HCState) :=
  let headerBytes := data.takeWhile (fun b => b ≠ 10)
  let rest := (data.dropWhile (fun b => b ≠ 10)).drop 1
  match parseHeader (headerBytes.map Char.ofNat) with
  | none => .error PyExc.valueError
  | some (frequency, _ext) =>
      match build_tree_and_codes frequency s with
      | .error e => .error e
      | .ok s1 =>
          let bit_string := (rest.map toBin8).foldr (· ++ ·) []
          let encoded_text := remove_padding bit_string
          let decode_tree := build_decode_tree s1.codes
          match decode_text_tree encoded_text decode_tree with
          | .error e => .error e
          | .ok text => .ok (text, s1)

/-- Compress on one fresh object, decompress the artifact on another fresh
object — the pipeline the spec's round-trip property describes. -/
def roundtrip (text ext : List Char) : Except PyExc (List Char) :=
  match compressCore freshState text ext with
  | .error e => .error e
  | .ok (artifact, _) => (decompressCore freshState artifact).map Prod.fst

/-! ## Auxiliary notions used by the theorems -/

/-- The leaf (if any) reached from `t` by the bit-character path `p`, read
with the same 0 = left / 1 = right convention as `make_codes_helper`. -/
def leafAt : HeapNode → List Char → Option Char
  | .leaf c _, [] => some c
  | .leaf _ _, _ :: _ => none
  | .node _ _ _, [] => none
  | .node _ l r, b :: p =>
      if b = '0' then leafAt l p
      else if b = '1' then leafAt r p
      else none

/-- `leadsIn a b`: the bit string `a` is an initial segment of `b`
(so a decoder reading `b` bit-by-bit would pass through `a`). -/
def leadsIn : List Char → List Char → Bool
  | [], _ => true
  | _ :: _, [] => false
  | a :: as, b :: bs => a = b && leadsIn as bs

/-- The artifact written by `compress` for the text "aabc" with extension
".txt" (header `\x7b"frequency": \x7b"a": 2, "b": 1, "c": 1}, 
"original_extension": ".txt"}` as bytes, the 0x0A delimiter, padding count
2, and the packed bits 00101100): used to exercise `decompress`. -/
def aabcArtifact : List Nat :=
  [123, 34, 102, 114, 101, 113, 117, 101, 110, 99, 121, 34, 58, 32, 123, 34,
   97, 34, 58, 32, 50, 44, 32, 34, 98, 34, 58, 32, 49, 44, 32, 34, 99, 34,
   58, 32, 49, 125, 44, 32, 34, 111, 114, 105, 103, 105, 110, 97, 108, 95,
   101, 120, 116, 101, 110, 115, 105, 111, 110, 34, 58, 32, 34, 46, 116,
   120, 116, 34, 125, 10, 2, 44]

/-! # Theorems -/

/-! ## C1: round-trip -/

/-- C1: decompressing the artifact produced by compressing S yields S for a
two-symbol alphabet ("abab") and a large mixed alphabet ("abracadabra"),
but FAILS for an alphabet of size 1: compressing "aaaa" and decompressing
yields the empty string, because the single symbol receives the empty code
(see C2), nothing is emitted into the payload, and the decoder reproduces
nothing.  This evaluates the code at the failing input the claim covers. -/
theorem c1_roundtrip_results :
    roundtrip ("abracadabra".toList) (".txt".toList) = .ok ("abracadabra".toList) ∧
    roundtrip ("abab".toList) (".txt".toList) = .ok ("abab".toList) ∧
    roundtrip ("aaaa".toList) (".txt".toList) = .ok [] := by
  refine ⟨by rfl, by rfl, by rfl⟩

/-! ## C2: single-symbol code -/

/-- C2: with a one-entry frequency table (input "aaaa"), the merge loop never
runs, `make_codes` pops the bare leaf as root, and `make_codes_helper`
stores the accumulated code "" for it — the code table maps 'a' to the
EMPTY code, not to a usable non-empty 1-bit code as the claim states. -/
theorem c2_single_symbol_code_empty :
    (build_tree_and_codes [('a', 4)] freshState).map HCState.codes = .ok [('a', [])] := by
  rfl

/-! ## C3: empty input -/

/-- C3 (counterexample to the claim as stated): encoding the empty sequence
fails with the untyped built-in IndexError raised by `heappop` on the empty
heap — not with a typed `EmptyInputError`, which the source never defines. -/
theorem c3_counterexample :
    compressCore freshState [] (".txt".toList) = .error PyExc.indexError := by
  rfl

/-- C3 (amended): for every extension tag, encoding an empty symbol sequence
fails with the untyped IndexError from popping an empty heap (`make_codes`),
and no artifact is produced; no `EmptyInputError` exists in the code. -/
theorem c3_empty_input_index_error (ext : List Char) :
    compressCore freshState [] ext = .error PyExc.indexError := by
  rfl

/-! ## C7: decoding truncated streams -/

/-- The decode loop's only failure is the KeyError of a missing dict child;
exhausting the bits simply ends the loop. -/
theorem decodeGo_error_is_keyError (root : DTree) :
    ∀ (bits : List Char) (node : DTree) (e : PyExc),
      decodeGo root bits node = .error e → e = PyExc.keyError := by
  intro bits
  induction bits with
  | nil =>
      intro node e h
      simp [decodeGo] at h
  | cons b rest ih =>
      intro node e h
      simp only [decodeGo] at h
      cases hc : node.child b with
      | none =>
          rw [hc] at h
          simp only [] at h
          cases h
          rfl
      | some n =>
          rw [hc] at h
          simp only [] at h
          cases hn : n.char with
          | some c =>
              rw [hn] at h
              simp only [] at h
              cases hd : decodeGo root rest root with
              | ok v => rw [hd] at h; simp [Except.map] at h
              | error e' =>
                  rw [hd] at h
                  simp only [Except.map] at h
                  injection h with h2
                  exact h2 ▸ ih root e' hd
          | none =>
              rw [hn] at h
              simp only [] at h
              exact ih n e h

/-- C7 (counterexample to the claim as stated): with the code table
a↦0, b↦10, c↦11, decoding the bit-string "1" — exhausted while positioned
on an internal node — returns successfully with the empty output, and
decoding "01" returns just "a": the partial codeword is silently dropped
and no error of any kind is raised, contradicting the claimed typed
`CorruptStreamError`. -/
theorem c7_counterexample :
    decode_text_tree ['1']
        (build_decode_tree [('a', ['0']), ('b', ['1', '0']), ('c', ['1', '1'])]) = .ok [] ∧
    decode_text_tree ['0', '1']
        (build_decode_tree [('a', ['0']), ('b', ['1', '0']), ('c', ['1', '1'])]) = .ok ['a'] := by
  refine ⟨by rfl, by rfl⟩

/-- C7 (amended): the decoding traversal never raises a typed
`CorruptStreamError` (no such type exists); its only possible failure is the
untyped KeyError when a bit has no child in the trie, and a bit-string that
ends mid-traversal terminates the loop silently, returning the symbols
decoded so far (see the counterexample). -/
theorem c7_decode_only_key_error (encoded : List Char) (tree : DTree) (e : PyExc)
    (h : decode_text_tree encoded tree = .error e) : e = PyExc.keyError :=
  decodeGo_error_is_keyError tree encoded tree e h

/-- Witness for C7's amended theorem: the trie with the single code 0↦'a'
raises KeyError on the bit "1". -/
theorem c7_witness :
    decode_text_tree ['1'] (build_decode_tree [('a', ['0'])]) = .error PyExc.keyError ∧
    PyExc.keyError = PyExc.keyError :=
  ⟨by rfl, c7_decode_only_key_error ['1'] (build_decode_tree [('a', ['0'])]) PyExc.keyError (by rfl)⟩

/-! ## C4 and C10: bit packing -/

theorem take_len_append {α : Type} (a b : List α) : (a ++ b).take a.length = a := by
  induction a with
  | nil => rfl
  | cons x xs ih => simp only [List.cons_append, List.length_cons, List.take_succ_cons, ih]

theorem drop_len_append {α : Type} (a b : List α) : (a ++ b).drop a.length = b := by
  induction a with
  | nil => rfl
  | cons x xs ih => simp only [List.cons_append, List.length_cons, List.drop_succ_cons, ih]

theorem take8_of_len8 {α : Type} (a b : List α) (h : a.length = 8) : (a ++ b).take 8 = a := by
  rw [← h]
  exact take_len_append a b

theorem drop8_of_len8 {α : Type} (a b : List α) (h : a.length = 8) : (a ++ b).drop 8 = b := by
  rw [← h]
  exact drop_len_append a b

/-- Any padding count in [0, 8] is rendered by `toBin8` as exactly 8 binary
digits, and parsed back by `int(s, 2)` to itself. -/
theorem toBin8_small : ∀ e, e ≤ 8 → (toBin8 e).length = 8 ∧ binToNat (toBin8 e) = e := by
  decide

theorem pad_encoded_text_length (bits : List Char) :
    (pad_encoded_text bits).length = 8 + bits.length + (8 - bits.length % 8) := by
  have hm : bits.length % 8 < 8 := Nat.mod_lt _ (by norm_num)
  obtain ⟨hlen, -⟩ := toBin8_small (8 - bits.length % 8) (by omega)
  simp [pad_encoded_text, hlen]
  omega

/-- C4: for every bit string, `remove_padding` inverts `pad_encoded_text`
(all residues of the length mod 8 are covered by the universal quantifier),
and the number of appended padding bits, `8 - len % 8`, is always between 1
and 8 — never 0 — so the padded string carries 8 header bits, the payload,
and 1 to 8 filler bits. -/
theorem c4_padding_roundtrip (bits : List Char) :
    remove_padding (pad_encoded_text bits) = bits ∧
    (pad_encoded_text bits).length = 8 + bits.length + (8 - bits.length % 8) ∧
    1 ≤ 8 - bits.length % 8 ∧ 8 - bits.length % 8 ≤ 8 := by
  have hm : bits.length % 8 < 8 := Nat.mod_lt _ (by norm_num)
  obtain ⟨hlen, hbin⟩ := toBin8_small (8 - bits.length % 8) (by omega)
  have hpad : pad_encoded_text bits =
      toBin8 (8 - bits.length % 8) ++ (bits ++ List.replicate (8 - bits.length % 8) '0') := by
    simp [pad_encoded_text]
  refine ⟨?_, ?_, by omega, by omega⟩
  · rw [hpad]
    have htake :
        (toBin8 (8 - bits.length % 8) ++ (bits ++ List.replicate (8 - bits.length % 8) '0')).take 8
          = toBin8 (8 - bits.length % 8) :=
      take8_of_len8 _ _ hlen
    have hdrop :
        (toBin8 (8 - bits.length % 8) ++ (bits ++ List.replicate (8 - bits.length % 8) '0')).drop 8
          = bits ++ List.replicate (8 - bits.length % 8) '0' :=
      drop8_of_len8 _ _ hlen
    have hlentot :
        (toBin8 (8 - bits.length % 8) ++ (bits ++ List.replicate (8 - bits.length % 8) '0')).length
          = 8 + (bits.length + (8 - bits.length % 8)) := by
      simp [hlen]
    simp only [remove_padding, htake, hdrop, hbin, hlentot]
    rw [if_neg (by omega : ¬ (8 - bits.length % 8 = 0))]
    have harith : 8 + (bits.length + (8 - bits.length % 8)) - (8 - bits.length % 8) - 8
        = bits.length := by omega
    rw [harith]
    exact take_len_append _ _
  · exact pad_encoded_text_length bits

/-- `get_byte_array` on a string whose length is a multiple of 8 produces
exactly one byte per consecutive 8-bit group. -/
theorem getByteArrayLoop_chunks :
    ∀ (fuel : Nat) (s : List Char), s.length ≤ fuel → s.length % 8 = 0 →
      getByteArrayLoop fuel s
        = (List.range (s.length / 8)).map (fun i => binToNat ((s.drop (8 * i)).take 8)) := by
  intro fuel
  induction fuel with
  | zero =>
      intro s hs _
      have : s = [] := List.eq_nil_of_length_eq_zero (by omega)
      subst this
      rfl
  | succ fuel ih =>
      intro s hs h8
      cases s with
      | nil => rfl
      | cons c t =>
          have hn : (c :: t).length = t.length + 1 := by simp
          have hge : 8 ≤ (c :: t).length := by omega
          have hdlen : ((c :: t).drop 8).length = (c :: t).length - 8 := by
            simp [List.length_drop]
          have hih := ih ((c :: t).drop 8) (by omega) (by omega)
          obtain ⟨k, hk⟩ : 8 ∣ (c :: t).length := Nat.dvd_of_mod_eq_zero h8
          have hk1 : 1 ≤ k := by omega
          have hdiv : (c :: t).length / 8 = k := by
            rw [hk]; exact Nat.mul_div_cancel_left k (by norm_num)
          have hdiv' : ((c :: t).drop 8).length / 8 = k - 1 := by
            rw [hdlen]
            have : (c :: t).length - 8 = 8 * (k - 1) := by omega
            rw [this]; exact Nat.mul_div_cancel_left _ (by norm_num)
          have hstep : getByteArrayLoop (fuel + 1) (c :: t)
              = binToNat ((c :: t).take 8) :: getByteArrayLoop fuel ((c :: t).drop 8) := by
            rfl
          rw [hstep, hih, hdiv', hdiv]
          have hkk : k = (k - 1) + 1 := by omega
          rw [hkk, List.range_succ_eq_map]
          simp only [List.map_cons, List.map_map, Nat.add_sub_cancel]
          congr 1
          apply List.map_congr_left
          intro i _
          simp only [Function.comp]
          have h1 : ((c :: t).drop 8).drop (8 * i) = (c :: t).drop (8 * i + 8) := by
            rw [List.drop_drop, Nat.add_comm]
          rw [h1]
          have h2 : 8 * Nat.succ i = 8 * i + 8 := by omega
          rw [h2]

/-- C10: the padded bit string always has length divisible by 8 (8 header
bits, the payload, and the 1-to-8 filler bits land on a byte boundary), and
`get_byte_array` consumes it in exact 8-bit groups: the i-th output byte is
the value of precisely the i-th 8-bit group, with no bits left over. -/
theorem c10_byte_alignment (bits : List Char) :
    (pad_encoded_text bits).length % 8 = 0 ∧
    get_byte_array (pad_encoded_text bits)
      = (List.range ((pad_encoded_text bits).length / 8)).map
          (fun i => binToNat (((pad_encoded_text bits).drop (8 * i)).take 8)) := by
  have hlen := pad_encoded_text_length bits
  have hm : bits.length % 8 < 8 := Nat.mod_lt _ (by norm_num)
  have h8 : (pad_encoded_text bits).length % 8 = 0 := by omega
  exact ⟨h8, getByteArrayLoop_chunks _ _ (le_refl _) h8⟩

/-! ## C6: the code table contains no nested codes -/

theorem dictGet_dictSet {α β : Type} [DecidableEq α] (d : List (α × β)) (k k' : α) (v : β) :
    dictGet (dictSet d k v) k' = if k = k' then some v else dictGet d k' := by
  induction d with
  | nil => simp [dictGet, dictSet]
  | cons kv rest ih =>
      obtain ⟨a, b⟩ := kv
      by_cases hak : a = k
      · subst hak
        simp only [dictSet, if_pos rfl, dictGet]
        by_cases hkk : a = k'
        · simp [hkk]
        · simp [hkk]
      · simp only [dictSet, if_neg hak, dictGet]
        by_cases hak' : a = k'
        · subst hak'
          have : ¬ (k = a) := fun h => hak h.symm
          simp [this]
        · simp [hak', ih]

/-- Every entry that `make_codes_helper` adds is the accumulated code of a
leaf of the traversed tree: overwritten or not, any value found in the
resulting dict either was already present or is `current_code` extended by
the path to a leaf carrying that symbol. -/
theorem make_codes_helper_entries (t : HeapNode) :
    ∀ (cur : List Char) (d : Codes) (x : Char) (c : List Char),
      dictGet (make_codes_helper t cur d) x = some c →
      dictGet d x = some c ∨ ∃ p, c = cur ++ p ∧ leafAt t p = some x := by
  induction t with
  | leaf ch f =>
      intro cur d x c h
      simp only [make_codes_helper] at h
      rw [dictGet_dictSet] at h
      by_cases hx : ch = x
      · rw [if_pos hx] at h
        injection h with h'
        refine Or.inr ⟨[], by simp [h'], ?_⟩
        subst hx
        rfl
      · rw [if_neg hx] at h
        exact Or.inl h
  | node f l r ihl ihr =>
      intro cur d x c h
      simp only [make_codes_helper] at h
      rcases ihr (cur ++ ['1']) _ x c h with h' | ⟨p, hp, hleaf⟩
      · rcases ihl (cur ++ ['0']) d x c h' with h'' | ⟨p, hp, hleaf⟩
        · exact Or.inl h''
        · refine Or.inr ⟨'0' :: p, by simp [hp], ?_⟩
          simp [leafAt, hleaf]
      · refine Or.inr ⟨'1' :: p, by simp [hp], ?_⟩
        simp [leafAt, hleaf]

/-- A leaf path cannot be properly extended to another leaf path: the
traversal stops at a leaf, so the only extension reaching a leaf is the
empty one, at the same leaf. -/
theorem leafAt_extension :
    ∀ (p : List Char) (t : HeapNode) (q : List Char) (x y : Char),
      leafAt t p = some x → leafAt t (p ++ q) = some y → q = [] ∧ x = y := by
  intro p
  induction p with
  | nil =>
      intro t q x y hx hy
      cases t with
      | leaf c f =>
          simp only [leafAt] at hx
          injection hx with hx'
          subst hx'
          cases q with
          | nil =>
              simp only [List.nil_append, leafAt] at hy
              injection hy with hy'
              exact ⟨rfl, hy'⟩
          | cons b q' => simp [leafAt] at hy
      | node f l r => simp [leafAt] at hx
  | cons b p' ih =>
      intro t q x y hx hy
      cases t with
      | leaf c f => simp [leafAt] at hx
      | node f l r =>
          simp only [leafAt] at hx hy
          by_cases hb0 : b = '0'
          · rw [if_pos hb0] at hx hy
            exact ih l q x y hx hy
          · rw [if_neg hb0] at hx hy
            by_cases hb1 : b = '1'
            · rw [if_pos hb1] at hx hy
              exact ih r q x y hx hy
            · rw [if_neg hb1] at hx
              exact absurd hx (by simp)

theorem leadsIn_extension :
    ∀ (a b : List Char), leadsIn a b = true → ∃ s, b = a ++ s := by
  intro a
  induction a with
  | nil => intro b _; exact ⟨b, rfl⟩
  | cons x xs ih =>
      intro b h
      cases b with
      | nil => simp [leadsIn] at h
      | cons y ys =>
          simp only [leadsIn, Bool.and_eq_true, decide_eq_true_eq] at h
          obtain ⟨s, hs⟩ := ih ys h.2
          exact ⟨s, by simp [h.1, hs]⟩

/-- C6: the code table generated by `make_codes_helper` (run as `make_codes`
runs it: from the root with empty accumulated code, into the fresh codes
dict) is prefix-free — for distinct symbols x and y with codes cx and cy,
cx is not an initial segment of cy. -/
theorem c6_code_table_nonnested (t : HeapNode) (x y : Char) (cx cy : List Char)
    (hxy : x ≠ y)
    (hx : dictGet (make_codes_helper t [] []) x = some cx)
    (hy : dictGet (make_codes_helper t [] []) y = some cy) :
    leadsIn cx cy = false := by
  rcases make_codes_helper_entries t [] [] x cx hx with h | ⟨px, hpx, hlx⟩
  · simp [dictGet] at h
  rcases make_codes_helper_entries t [] [] y cy hy with h | ⟨py, hpy, hly⟩
  · simp [dictGet] at h
  simp only [List.nil_append] at hpx hpy
  subst hpx
  subst hpy
  by_contra hlead
  have hlead' : leadsIn cx cy = true := by
    cases h : leadsIn cx cy with
    | true => rfl
    | false => exact absurd h hlead
  obtain ⟨s, hs⟩ := leadsIn_extension cx cy hlead'
  subst hs
  obtain ⟨-, hxyeq⟩ := leafAt_extension cx t s x y hlx hly
  exact hxy hxyeq

/-- Witness for C6: in the tree built from the frequencies a:1, b:1, c:1
(leaves a, and the merged subtree over b and c), the codes of the distinct
symbols 'b' (10) and 'c' (11) do not nest. -/
theorem c6_witness : leadsIn ['1', '0'] ['1', '1'] = false :=
  c6_code_table_nonnested
    (HeapNode.node 3 (HeapNode.leaf 'a' 1) (HeapNode.node 2 (HeapNode.leaf 'b' 1) (HeapNode.leaf 'c' 1)))
    'b' 'c' ['1', '0'] ['1', '1'] (by decide) (by rfl) (by rfl)

/-! ## C5 and C9: state dependence of the pipeline -/

/-- Running the shared `make_heap; merge_nodes; make_codes` sequence from a
state with empty heap and empty codes is the fresh-object run with the
`reverse_mapping` field carried along unchanged. -/
theorem build_tree_and_codes_clean (f : List (Char × Nat)) (rm : List (List Char × Char)) :
    build_tree_and_codes f ⟨[], [], rm⟩ =
      (build_tree_and_codes f freshState).map (fun st => ⟨st.heap, st.codes, rm⟩) := by
  unfold build_tree_and_codes freshState
  dsimp only
  cases h : heappop (merge_nodes (make_heap f [])) with
  | none => rfl
  | some p =>
      obtain ⟨root, heap3⟩ := p
      rfl

/-- C5: tree construction is deterministic from the frequency table alone —
two independent runs of heap construction plus merging plus code generation
(the sequence both `compress` and `decompress` execute), started from any
two states whose heap and codes fields are empty (as on freshly constructed
compress-side and decompress-side objects), produce the identical code
table; no queue nondeterminism or object identity enters the model, whose
equal-weight tie-breaking is the pure function of the frequency data
realized by CPython's deterministic heapq algorithm. -/
theorem c5_tree_build_deterministic (f : List (Char × Nat)) (s₁ s₂ : HCState)
    (h₁ : s₁.heap = []) (h₂ : s₂.heap = []) (c₁ : s₁.codes = []) (c₂ : s₂.codes = []) :
    (build_tree_and_codes f s₁).map HCState.codes
      = (build_tree_and_codes f s₂).map HCState.codes := by
  obtain ⟨heap1, codes1, rm1⟩ := s₁
  obtain ⟨heap2, codes2, rm2⟩ := s₂
  dsimp only at h₁ h₂ c₁ c₂
  subst h₁
  subst h₂
  subst c₁
  subst c₂
  rw [build_tree_and_codes_clean f rm1, build_tree_and_codes_clean f rm2]
  cases build_tree_and_codes f freshState with
  | error e => rfl
  | ok st => rfl

/-- Witness for C5: the two-symbol table a:1, b:1 built from two states that
differ in their (unused) `reverse_mapping` field gives the same code table. -/
theorem c5_witness :
    (build_tree_and_codes [('a', 1), ('b', 1)] ⟨[], [], []⟩).map HCState.codes =
      (build_tree_and_codes [('a', 1), ('b', 1)] ⟨[], [], [(['0'], 'q')]⟩).map HCState.codes :=
  c5_tree_build_deterministic [('a', 1), ('b', 1)] ⟨[], [], []⟩ ⟨[], [], [(['0'], 'q')]⟩
    rfl rfl rfl rfl

/-- C9 (counterexample to the claim as stated): a `HuffmanCoding` object
whose earlier use left the entry z ↦ "1" in `self.codes` decompresses the
"aabc" artifact to "aazazz", while a freshly constructed object yields
"aabc": the stale entry flows into `build_decode_tree`, marks the internal
trie node reached by the bit 1 as emitting 'z', and corrupts the output —
residual state from an earlier call does influence a later call. -/
theorem c9_counterexample :
    (decompressCore ⟨[], [('z', ['1'])], []⟩ aabcArtifact).map Prod.fst
        = .ok ("aazazz".toList) ∧
    (decompressCore freshState aabcArtifact).map Prod.fst = .ok ("aabc".toList) ∧
    ("aazazz".toList ≠ "aabc".toList) := by
  refine ⟨by rfl, by rfl, by decide⟩

/-- C9 (amended): invocations are only as independent as the residual state
is clean — from any state whose `heap` and `codes` fields are empty (the
`reverse_mapping` field is never read), compress and decompress behave
exactly as on a freshly constructed object; with a non-empty residual
`codes` dict the decompress output can differ (see the counterexample). -/
theorem c9_clean_state_matches_fresh (s : HCState) (text ext : List Char) (data : List Nat)
    (hh : s.heap = []) (hc : s.codes = []) :
    (compressCore s text ext).map Prod.fst
        = (compressCore freshState text ext).map Prod.fst ∧
    (decompressCore s data).map Prod.fst
        = (decompressCore freshState data).map Prod.fst := by
  obtain ⟨heap0, codes0, rm⟩ := s
  dsimp only at hh hc
  subst hh
  subst hc
  constructor
  · simp only [compressCore]
    rw [build_tree_and_codes_clean]
    cases hb : build_tree_and_codes (make_frequency_dict text) freshState with
    | error e => rfl
    | ok st =>
        dsimp only [Except.map]
        cases hg : get_encoded_text st.codes text with
        | none => rfl
        | some encoded => rfl
  · simp only [decompressCore]
    cases hp : parseHeader
        (((data.takeWhile (fun b => b ≠ 10)).map Char.ofNat)) with
    | none => rfl
    | some q =>
        obtain ⟨frequency, ext'⟩ := q
        dsimp only
        rw [build_tree_and_codes_clean]
        cases hb : build_tree_and_codes frequency freshState with
        | error e => rfl
        | ok st =>
            dsimp only [Except.map]
            cases hd : decode_text_tree
                (remove_padding
                  ((((data.dropWhile (fun b => b ≠ 10)).drop 1).map toBin8).foldr (· ++ ·) []))
                (build_decode_tree st.codes) with
            | error e => rfl
            | ok text' => rfl

/-- Witness for C9's amended theorem: a state with empty heap and codes but
a non-empty `reverse_mapping` decompresses the "aabc" artifact exactly as a
fresh object does. -/
theorem c9_witness :
    (decompressCore ⟨[], [], [(['0'], 'q')]⟩ aabcArtifact).map Prod.fst =
      (decompressCore freshState aabcArtifact).map Prod.fst :=
  (c9_clean_state_matches_fresh ⟨[], [], [(['0'], 'q')]⟩ [] [] aabcArtifact rfl rfl).2

/-! ## C8: the serialized header never contains the delimiter byte 0x0A -/

theorem digitChar_eq_star (n : Nat) (h : 16 ≤ n) : Nat.digitChar n = '*' := by
  unfold Nat.digitChar
  repeat' rw [if_neg (by omega)]

theorem digitChar_toNat_ne_ten (n : Nat) : (Nat.digitChar n).toNat ≠ 10 := by
  rcases Nat.lt_or_ge n 16 with h | h
  · interval_cases n <;> decide
  · rw [digitChar_eq_star n h]
    decide

theorem mem_hex4_ne_ten (n : Nat) (c : Char) (h : c ∈ hex4 n) : c.toNat ≠ 10 := by
  simp only [hex4, hexDig, List.mem_cons, List.not_mem_nil, or_false] at h
  rcases h with rfl | rfl | rfl | rfl
  all_goals exact digitChar_toNat_ne_ten _

theorem mem_natDecDigits_ne_ten :
    ∀ (fuel n : Nat) (c : Char), c ∈ natDecDigits fuel n → c.toNat ≠ 10 := by
  intro fuel
  induction fuel with
  | zero => intro n c h; simp [natDecDigits] at h
  | succ fuel ih =>
      intro n c h
      simp only [natDecDigits] at h
      split at h
      · rw [List.mem_singleton] at h
        subst h
        exact digitChar_toNat_ne_ten _
      · rcases List.mem_append.mp h with h' | h'
        · exact ih _ _ h'
        · rw [List.mem_singleton] at h'
          subst h'
          exact digitChar_toNat_ne_ten _

theorem mem_natToDecStr_ne_ten (n : Nat) (c : Char) (h : c ∈ natToDecStr n) :
    c.toNat ≠ 10 :=
  mem_natDecDigits_ne_ten (n + 1) n c h

theorem escapeChar_ne_ten (c c' : Char) (h : c' ∈ escapeChar c) : c'.toNat ≠ 10 := by
  unfold escapeChar at h
  by_cases h1 : c = '\\'
  · rw [if_pos h1] at h
    fin_cases h <;> decide
  rw [if_neg h1] at h
  by_cases h2 : c = '"'
  · rw [if_pos h2] at h
    fin_cases h <;> decide
  rw [if_neg h2] at h
  by_cases h3 : (0x20 ≤ c.toNat && c.toNat ≤ 0x7e) = true
  · rw [if_pos h3] at h
    fin_cases h
    simp only [Bool.and_eq_true, decide_eq_true_eq] at h3
    omega
  rw [if_neg h3] at h
  by_cases h4 : c = '\n'
  · rw [if_pos h4] at h
    fin_cases h <;> decide
  rw [if_neg h4] at h
  by_cases h5 : c = '\t'
  · rw [if_pos h5] at h
    fin_cases h <;> decide
  rw [if_neg h5] at h
  by_cases h6 : c = '\r'
  · rw [if_pos h6] at h
    fin_cases h <;> decide
  rw [if_neg h6] at h
  by_cases h7 : c.toNat = 0x08
  · rw [if_pos h7] at h
    fin_cases h <;> decide
  rw [if_neg h7] at h
  by_cases h8 : c.toNat = 0x0c
  · rw [if_pos h8] at h
    fin_cases h <;> decide
  rw [if_neg h8] at h
  by_cases h9 : c.toNat < 0x10000
  · rw [if_pos h9] at h
    rcases List.mem_cons.mp h with rfl | h'
    · decide
    rcases List.mem_cons.mp h' with rfl | h''
    · decide
    exact mem_hex4_ne_ten _ _ h''
  · rw [if_neg h9] at h
    rcases List.mem_append.mp h with h' | h'
    all_goals
      rcases List.mem_cons.mp h' with rfl | h''
      · decide
      rcases List.mem_cons.mp h'' with rfl | h'''
      · decide
      exact mem_hex4_ne_ten _ _ h'''

theorem mem_escapeStr_ne_ten :
    ∀ (s : List Char) (c : Char), c ∈ escapeStr s → c.toNat ≠ 10 := by
  intro s
  induction s with
  | nil => intro c h; simp [escapeStr] at h
  | cons x xs ih =>
      intro c h
      simp only [escapeStr] at h
      rcases List.mem_append.mp h with h' | h'
      · exact escapeChar_ne_ten x c h'
      · exact ih c h'

theorem mem_dumpJStr_ne_ten (s : List Char) (c : Char) (h : c ∈ dumpJStr s) :
    c.toNat ≠ 10 := by
  simp only [dumpJStr] at h
  rcases List.mem_cons.mp h with rfl | h'
  · decide
  rcases List.mem_append.mp h' with h'' | h''
  · exact mem_escapeStr_ne_ten s c h''
  · rw [List.mem_singleton] at h''
    subst h''
    decide

theorem mem_dumpFreqPairs_ne_ten :
    ∀ (freq : List (Char × Nat)) (c : Char), c ∈ dumpFreqPairs freq → c.toNat ≠ 10
  | [], c, h => by simp [dumpFreqPairs] at h
  | [(k, n)], c, h => by
      simp only [dumpFreqPairs] at h
      rcases List.mem_append.mp h with h1 | h1
      · rcases List.mem_append.mp h1 with h2 | h2
        · exact mem_dumpJStr_ne_ten _ _ h2
        · fin_cases h2 <;> decide
      · exact mem_natToDecStr_ne_ten _ _ h1
  | (k, n) :: (k2, n2) :: rest, c, h => by
      simp only [dumpFreqPairs] at h
      rcases List.mem_append.mp h with h1 | h1
      · rcases List.mem_append.mp h1 with h2 | h2
        · rcases List.mem_append.mp h2 with h3 | h3
          · rcases List.mem_append.mp h3 with h4 | h4
            · exact mem_dumpJStr_ne_ten _ _ h4
            · fin_cases h4 <;> decide
          · exact mem_natToDecStr_ne_ten _ _ h3
        · fin_cases h2 <;> decide
      · exact mem_dumpFreqPairs_ne_ten ((k2, n2) :: rest) _ h1

theorem mem_json_dumps_header_ne_ten (freq : List (Char × Nat)) (ext : List Char)
    (c : Char) (h : c ∈ json_dumps_header freq ext) : c.toNat ≠ 10 := by
  simp only [json_dumps_header] at h
  rcases List.mem_cons.mp h with rfl | h0
  · decide
  rcases List.mem_append.mp h0 with h1 | h1
  case inr => fin_cases h1; decide
  rcases List.mem_append.mp h1 with h2 | h2
  case inr => exact mem_dumpJStr_ne_ten _ _ h2
  rcases List.mem_append.mp h2 with h3 | h3
  case inr => fin_cases h3 <;> decide
  rcases List.mem_append.mp h3 with h4 | h4
  case inr => exact mem_dumpJStr_ne_ten _ _ h4
  rcases List.mem_append.mp h4 with h5 | h5
  case inr => fin_cases h5 <;> decide
  rcases List.mem_append.mp h5 with h6 | h6
  case inr =>
    simp only [dumpFreqObj] at h6
    rcases List.mem_cons.mp h6 with rfl | h7
    · decide
    rcases List.mem_append.mp h7 with h8 | h8
    · exact mem_dumpFreqPairs_ne_ten freq _ h8
    · fin_cases h8; decide
  rcases List.mem_append.mp h6 with h7 | h7
  case inr => fin_cases h7 <;> decide
  exact mem_dumpJStr_ne_ten _ _ h7

/-- Scanning a delimiter-free block followed by the delimiter and a payload
recovers exactly the block and exactly the payload. -/
theorem scan_delimited (payload : List Nat) :
    ∀ (l : List Nat), (∀ b ∈ l, b ≠ 10) →
      (l ++ 10 :: payload).takeWhile (fun b => b ≠ 10) = l ∧
      ((l ++ 10 :: payload).dropWhile (fun b => b ≠ 10)).drop 1 = payload := by
  intro l
  induction l with
  | nil =>
      intro _
      constructor
      · rw [List.nil_append, List.takeWhile_cons_of_neg (by decide)]
      · rw [List.nil_append, List.dropWhile_cons_of_neg (by decide)]
        rfl
  | cons b l' ih =>
      intro hb
      have hbne : b ≠ 10 := hb b (List.mem_cons_self b l')
      obtain ⟨ih1, ih2⟩ := ih (fun x hx => hb x (List.mem_cons_of_mem b hx))
      have hp : (fun x : Nat => decide (x ≠ 10)) b = true := decide_eq_true hbne
      constructor
      · simp only [List.cons_append, List.takeWhile_cons, hp, if_true, ih1]
      · simp only [List.cons_append, List.dropWhile_cons, hp, if_true, ih2]

/-- C8: for every frequency table and extension tag, the serialized JSON
header contains no 0x0A byte (every character escapes away from the
delimiter), so the decoder's read-until-delimiter scan over
`header ++ 0x0A ++ payload` returns exactly the header's bytes — hence
exactly the original serialized header fields to be parsed back — and
treats exactly the remaining bytes as the packed payload. -/
theorem c8_header_delimiter_safe (freq : List (Char × Nat)) (ext : List Char)
    (payload : List Nat) :
    (json_dumps_header freq ext).all (fun c => c.toNat ≠ 10) = true ∧
    ((json_dumps_header freq ext).map Char.toNat ++ 10 :: payload).takeWhile
        (fun b => b ≠ 10) = (json_dumps_header freq ext).map Char.toNat ∧
    (((json_dumps_header freq ext).map Char.toNat ++ 10 :: payload).dropWhile
        (fun b => b ≠ 10)).drop 1 = payload := by
  have hbytes : ∀ b ∈ (json_dumps_header freq ext).map Char.toNat, b ≠ 10 := by
    intro b hbm
    rcases List.mem_map.mp hbm with ⟨c, hc, rfl⟩
    exact mem_json_dumps_header_ne_ten freq ext c hc
  obtain ⟨h1, h2⟩ := scan_delimited payload _ hbytes
  refine ⟨?_, h1, h2⟩
  rw [List.all_eq_true]
  intro c hc
  exact decide_eq_true (mem_json_dumps_header_ne_ten freq ext c hc)
